import Mathlib

set_option linter.unusedSectionVars false
set_option linter.unnecessarySeqFocus false

/-!
# Verification of the `cpp-micrograd` scalar autodiff engine

Shallow embedding of the `Value` computational-graph engine
(`value.hpp` / `value.cpp`): nodes live in an arena (`Store`) and are
referred to by their allocation index, which plays the role of the
`std::shared_ptr<Value>` identity.  Every operator-layer function, the
mutators, and `Value::backward` (DFS post-order topological sort plus
reverse execution of the per-node backward closures) are translated
directly from the source.

The scalar type is a parameter `K` and the `<cmath>` routines the
source calls (`std::tanh`, `std::exp`, `std::pow`) are passed as
explicit function arguments; the theorems about the program instantiate
`K := ℝ` with `Real.tanh`, `Real.exp` and `Real.rpow`.
-/

namespace Micrograd

/-- The per-node backward closure `m_backward_fn`.  The C++ code stores a
`std::function<void()>` capturing the operand handles plus any
forward-computed constants; we model it as a tagged variant carrying
exactly the captured data (operand ids, the fresh output id, and for
`tanh`/`exp` the forward result `t`/`e`, for `pow` the exponent). -/
inductive BwdFn (K : Type) where
  /-- the leaf closure `[]() {}` -/
  | noop : BwdFn K
  /-- closure of `operator+`: captures `lhs`, `rhs`, `out` -/
  | add (lhs rhs out : Nat) : BwdFn K
  /-- closure of `operator*`: captures `lhs`, `rhs`, `out` -/
  | mul (lhs rhs out : Nat) : BwdFn K
  /-- closure of `tanh`: captures `v`, the forward value `t`, `out` -/
  | tanh (v : Nat) (t : K) (out : Nat) : BwdFn K
  /-- closure of `exp`: captures `v`, the forward value `e`, `out` -/
  | exp (v : Nat) (e : K) (out : Nat) : BwdFn K
  /-- closure of `pow`: captures `base`, the exponent `exp_val`, `out` -/
  | pow (base : Nat) (exp_val : K) (out : Nat) : BwdFn K

/-- A node of the computational graph (`class Value`).  `prev` is the
member `m_prev : std::set<ValuePtr>`, rendered as a duplicate-free list
of arena indices sorted in the set's key order (pointer order, i.e.
allocation order in the arena model). -/
structure Node (K : Type) where
  data : K
  grad : K
  label : String
  op : String
  prev : List Nat
  bwd : BwdFn K

/-- The arena of nodes; a `ValuePtr` is an index into it. -/
abbrev Store (K : Type) := List (Node K)

variable {K : Type} [CommRing K]

/-- Accessor `v->data()` (0 for a dangling id, which the source cannot produce). -/
def dataOf (s : Store K) (i : Nat) : K := ((s[i]?).map Node.data).getD 0

/-- Accessor `v->grad()` -/
def gradOf (s : Store K) (i : Nat) : K := ((s[i]?).map Node.grad).getD 0

/-- Accessor `v->label()` -/
def labelOf (s : Store K) (i : Nat) : String := ((s[i]?).map Node.label).getD ("")

/-- the `m_op` field -/
def opOf (s : Store K) (i : Nat) : String := ((s[i]?).map Node.op).getD ("")

/-- the operand set `v->m_prev` -/
def prevOf (s : Store K) (i : Nat) : List Nat := ((s[i]?).map Node.prev).getD []

/-- the stored backward closure `v->m_backward_fn` -/
def bwdOf (s : Store K) (i : Nat) : BwdFn K := ((s[i]?).map Node.bwd).getD .noop

/-- Helper: apply `f` to the `m_grad` field of node `i` (a write through a
valid `ValuePtr`; out-of-range ids cannot occur in the source). -/
def modifyGrad (s : Store K) (i : Nat) (f : K → K) : Store K :=
  match s[i]? with
  | some nd => s.set i { nd with grad := f nd.grad }
  | none => s

/-- Mutator `Value::set_grad`: `m_grad = grad;` -/
def set_grad (s : Store K) (i : Nat) (g : K) : Store K :=
  modifyGrad s i (fun _ => g)

/-- Mutator `Value::add_to_grad`: `m_grad += grad_increment;` -/
def add_to_grad (s : Store K) (i : Nat) (d : K) : Store K :=
  modifyGrad s i (fun x => x + d)

/-- Mutator `Value::zero_grad`: `m_grad = 0.0;` -/
def zero_grad (s : Store K) (i : Nat) : Store K :=
  modifyGrad s i (fun _ => 0)

/-- Mutator `Value::set_data`: `m_data = data;` -/
def set_data (s : Store K) (i : Nat) (x : K) : Store K :=
  match s[i]? with
  | some nd => s.set i { nd with data := x }
  | none => s

/-- Operand set construction `std::set<ValuePtr>{lhs, rhs}`: duplicates collapse, keys ordered. -/
def mkSet (l r : Nat) : List Nat :=
  if l = r then [l] else if l < r then [l, r] else [r, l]

/-- Factory `make_value(data, label)`: allocate a leaf node (second `Value`
constructor with no children; `m_grad = 0`, `m_op = ""`, backward
closure `[]() {}`); returns the extended arena and the fresh id. -/
def make_value (s : Store K) (data : K) (label : String := "") : Store K × Nat :=
  (s ++ [⟨data, 0, label, "", [], .noop⟩], s.length)

/-- Source `operator+(const ValuePtr&, const ValuePtr&)`. -/
def vadd (s : Store K) (lhs rhs : Nat) : Store K × Nat :=
  let out := s.length
  (s ++ [⟨dataOf s lhs + dataOf s rhs, 0, "", "+", mkSet lhs rhs,
          .add lhs rhs out⟩], out)

/-- Source `operator*(const ValuePtr&, const ValuePtr&)`. -/
def vmul (s : Store K) (lhs rhs : Nat) : Store K × Nat :=
  let out := s.length
  (s ++ [⟨dataOf s lhs * dataOf s rhs, 0, "", "*", mkSet lhs rhs,
          .mul lhs rhs out⟩], out)

/-- Source `tanh(const ValuePtr&)`; `tanhFn` is `std::tanh`. -/
def vtanh (tanhFn : K → K) (s : Store K) (v : Nat) : Store K × Nat :=
  let t := tanhFn (dataOf s v)
  let out := s.length
  (s ++ [⟨t, 0, "", "tanh", [v], .tanh v t out⟩], out)

/-- Source `exp(const ValuePtr&)`; `expFn` is `std::exp`. -/
def vexp (expFn : K → K) (s : Store K) (v : Nat) : Store K × Nat :=
  let e := expFn (dataOf s v)
  let out := s.length
  (s ++ [⟨e, 0, "", "exp", [v], .exp v e out⟩], out)

/-- Source `pow(const ValuePtr&, double)`; `powFn` is `std::pow`. -/
def vpow (powFn : K → K → K) (s : Store K) (base : Nat) (exp_val : K) :
    Store K × Nat :=
  let result := powFn (dataOf s base) exp_val
  let out := s.length
  (s ++ [⟨result, 0, "", "pow", [base], .pow base exp_val out⟩], out)

/-- Source `operator*(const ValuePtr&, double)`: `lhs * make_value(rhs_val)` -/
def vmulC (s : Store K) (lhs : Nat) (rhs_val : K) : Store K × Nat :=
  let p := make_value s rhs_val
  vmul p.1 lhs p.2

/-- Source `operator*(double, const ValuePtr&)`: `make_value(lhs_val) * rhs` -/
def vmulC' (s : Store K) (lhs_val : K) (rhs : Nat) : Store K × Nat :=
  let p := make_value s lhs_val
  vmul p.1 p.2 rhs

/-- Source `operator+(const ValuePtr&, double)`: `lhs + make_value(rhs_val)` -/
def vaddC (s : Store K) (lhs : Nat) (rhs_val : K) : Store K × Nat :=
  let p := make_value s rhs_val
  vadd p.1 lhs p.2

/-- Source `operator+(double, const ValuePtr&)`: `make_value(lhs_val) + rhs` -/
def vaddC' (s : Store K) (lhs_val : K) (rhs : Nat) : Store K × Nat :=
  let p := make_value s lhs_val
  vadd p.1 p.2 rhs

/-- Source `operator-(const ValuePtr&)` (unary negation): `v * -1.0` -/
def vneg (s : Store K) (v : Nat) : Store K × Nat :=
  vmulC s v (-1)

/-- Source `operator-(const ValuePtr&, const ValuePtr&)`:: `lhs + (-rhs)` -/
def vsub (s : Store K) (lhs rhs : Nat) : Store K × Nat :=
  let p := vneg s rhs
  vadd p.1 lhs p.2

/-- Source `operator/(const ValuePtr&, const ValuePtr&)`:: `lhs * pow(rhs, -1.0)` -/
def vdiv (powFn : K → K → K) (s : Store K) (lhs rhs : Nat) : Store K × Nat :=
  let p := vpow powFn s rhs (-1)
  vmul p.1 lhs p.2

/-- Source `operator/(const ValuePtr&, double)`: `lhs / make_value(rhs_val)` -/
def vdivC (powFn : K → K → K) (s : Store K) (lhs : Nat) (rhs_val : K) :
    Store K × Nat :=
  let p := make_value s rhs_val
  vdiv powFn p.1 lhs p.2

/-- Modelled from the spec: `operator-(const ValuePtr&, double)` is
declared in `value.hpp` but its definition is not in the sources; per
the spec's mixed Node/scalar rule, the scalar operand is first wrapped
as a fresh unlabeled leaf Node, then the Node/Node subtraction is
used. -/
def vsubC (s : Store K) (lhs : Nat) (rhs_val : K) : Store K × Nat :=
  let p := make_value s rhs_val
  vsub p.1 lhs p.2

/-- Modelled from the spec: `operator-(double, const ValuePtr&)` is
declared in `value.hpp` but its definition is not in the sources; per
the spec's mixed Node/scalar rule, the scalar operand is first wrapped
as a fresh unlabeled leaf Node, then the Node/Node subtraction is
used. -/
def vsubC' (s : Store K) (lhs_val : K) (rhs : Nat) : Store K × Nat :=
  let p := make_value s lhs_val
  vsub p.1 p.2 rhs

/-- One invocation of a stored backward closure, exactly as the C++
closures read and write the arena (sequenced: the second
`add_to_grad` reads the store produced by the first; `mul` and `pow`
re-read operand `data` at call time, `tanh`/`exp` use the captured
forward constant). -/
def runBwd (powFn : K → K → K) (s : Store K) (f : BwdFn K) : Store K :=
  match f with
  | .noop => s
  | .add lhs rhs out =>
      let s1 := add_to_grad s lhs (gradOf s out)
      add_to_grad s1 rhs (gradOf s1 out)
  | .mul lhs rhs out =>
      let s1 := add_to_grad s lhs (dataOf s rhs * gradOf s out)
      add_to_grad s1 rhs (dataOf s1 lhs * gradOf s1 out)
  | .tanh v t out =>
      add_to_grad s v ((1 - t * t) * gradOf s out)
  | .exp v e out =>
      add_to_grad s v (e * gradOf s out)
  | .pow base exp_val out =>
      add_to_grad s base
        ((exp_val * powFn (dataOf s base) (exp_val - 1)) * gradOf s out)

/-- The recursive `build_topo` lambda of `Value::backward`: if `v` is
not yet visited, mark it, recurse into each operand in the set's order,
then append `v` to the post-order list.  State is
`(visited, topo)`.  The C++ recursion terminates because operand ids
are strictly smaller than their consumer's id; the fuel argument makes
that measure explicit (`backward` passes `root + 1`, which suffices). -/
def buildTopo (s : Store K) : Nat → Nat → List Nat × List Nat → List Nat × List Nat
  | 0, _, st => st
  | fuel + 1, v, st =>
    if v ∈ st.1 then st
    else
      let p := (prevOf s v).foldl (fun acc c => buildTopo s fuel c acc) (v :: st.1, st.2)
      (p.1, p.2 ++ [v])

/-- The post-order list `topo` computed by `Value::backward`. -/
def topoOf (s : Store K) (root : Nat) : List Nat :=
  (buildTopo s (root + 1) root ([], [])).2

/-- Source `Value::backward()`: build `topo` from `this`, set `this->m_grad =
1.0`, then run every node's `m_backward_fn` in reverse `topo` order. -/
def backward (powFn : K → K → K) (s : Store K) (root : Nat) : Store K :=
  let topo := topoOf s root
  let s1 := set_grad s root 1
  (topo.reverse).foldl (fun st v => runBwd powFn st (bwdOf st v)) s1

/-- The node ids whose `m_grad` a stored backward closure increments. -/
def BwdFn.targets : BwdFn K → List Nat
  | .noop => []
  | .add lhs rhs _ => [lhs, rhs]
  | .mul lhs rhs _ => [lhs, rhs]
  | .tanh v _ _ => [v]
  | .exp v _ _ => [v]
  | .pow base _ _ => [base]

/-! ## Mutator lemmas -/

theorem length_modifyGrad (s : Store K) (i : Nat) (f : K → K) :
    (modifyGrad s i f).length = s.length := by
  unfold modifyGrad
  cases h : s[i]? with
  | none => rfl
  | some nd => simp

theorem getElem?_modifyGrad_ne (s : Store K) (f : K → K) {i j : Nat} (h : i ≠ j) :
    (modifyGrad s i f)[j]? = s[j]? := by
  unfold modifyGrad
  cases hx : s[i]? with
  | none => rfl
  | some nd => exact List.getElem?_set_ne h

theorem getElem?_modifyGrad_self (s : Store K) (f : K → K) {i : Nat} {nd : Node K}
    (hx : s[i]? = some nd) :
    (modifyGrad s i f)[i]? = some { nd with grad := f nd.grad } := by
  have hi : i < s.length := by
    by_contra hge
    rw [List.getElem?_eq_none (by omega)] at hx
    exact Option.noConfusion hx
  unfold modifyGrad
  rw [hx]
  exact List.getElem?_set_eq_of_lt _ hi

theorem gradOf_modifyGrad_self (s : Store K) (f : K → K) {i : Nat}
    (hi : i < s.length) :
    gradOf (modifyGrad s i f) i = f (gradOf s i) := by
  obtain ⟨nd, hx⟩ : ∃ nd, s[i]? = some nd := by
    cases hy : s[i]? with
    | none => exact absurd (List.getElem?_eq_none_iff.mp hy) (by omega)
    | some nd => exact ⟨nd, rfl⟩
  simp [gradOf, getElem?_modifyGrad_self s f hx, hx]

theorem gradOf_modifyGrad_ne (s : Store K) (f : K → K) {i j : Nat} (h : i ≠ j) :
    gradOf (modifyGrad s i f) j = gradOf s j := by
  unfold gradOf
  rw [getElem?_modifyGrad_ne s f h]

theorem dataOf_modifyGrad (s : Store K) (i : Nat) (f : K → K) (j : Nat) :
    dataOf (modifyGrad s i f) j = dataOf s j := by
  by_cases hij : i = j
  · subst hij
    cases hx : s[i]? with
    | none => simp [dataOf, modifyGrad, hx]
    | some nd => simp [dataOf, getElem?_modifyGrad_self s f hx, hx]
  · simp [dataOf, getElem?_modifyGrad_ne s f hij]

theorem labelOf_modifyGrad (s : Store K) (i : Nat) (f : K → K) (j : Nat) :
    labelOf (modifyGrad s i f) j = labelOf s j := by
  by_cases hij : i = j
  · subst hij
    cases hx : s[i]? with
    | none => simp [labelOf, modifyGrad, hx]
    | some nd => simp [labelOf, getElem?_modifyGrad_self s f hx, hx]
  · simp [labelOf, getElem?_modifyGrad_ne s f hij]

theorem opOf_modifyGrad (s : Store K) (i : Nat) (f : K → K) (j : Nat) :
    opOf (modifyGrad s i f) j = opOf s j := by
  by_cases hij : i = j
  · subst hij
    cases hx : s[i]? with
    | none => simp [opOf, modifyGrad, hx]
    | some nd => simp [opOf, getElem?_modifyGrad_self s f hx, hx]
  · simp [opOf, getElem?_modifyGrad_ne s f hij]

theorem prevOf_modifyGrad (s : Store K) (i : Nat) (f : K → K) (j : Nat) :
    prevOf (modifyGrad s i f) j = prevOf s j := by
  by_cases hij : i = j
  · subst hij
    cases hx : s[i]? with
    | none => simp [prevOf, modifyGrad, hx]
    | some nd => simp [prevOf, getElem?_modifyGrad_self s f hx, hx]
  · simp [prevOf, getElem?_modifyGrad_ne s f hij]

theorem bwdOf_modifyGrad (s : Store K) (i : Nat) (f : K → K) (j : Nat) :
    bwdOf (modifyGrad s i f) j = bwdOf s j := by
  by_cases hij : i = j
  · subst hij
    cases hx : s[i]? with
    | none => simp [bwdOf, modifyGrad, hx]
    | some nd => simp [bwdOf, getElem?_modifyGrad_self s f hx, hx]
  · simp [bwdOf, getElem?_modifyGrad_ne s f hij]

/-! ## `runBwd` frame lemmas -/

theorem length_runBwd (powFn : K → K → K) (s : Store K) (f : BwdFn K) :
    (runBwd powFn s f).length = s.length := by
  cases f <;> simp [runBwd, add_to_grad, length_modifyGrad]

theorem dataOf_runBwd (powFn : K → K → K) (s : Store K) (f : BwdFn K) (j : Nat) :
    dataOf (runBwd powFn s f) j = dataOf s j := by
  cases f <;> simp [runBwd, add_to_grad, dataOf_modifyGrad]

theorem labelOf_runBwd (powFn : K → K → K) (s : Store K) (f : BwdFn K) (j : Nat) :
    labelOf (runBwd powFn s f) j = labelOf s j := by
  cases f <;> simp [runBwd, add_to_grad, labelOf_modifyGrad]

theorem opOf_runBwd (powFn : K → K → K) (s : Store K) (f : BwdFn K) (j : Nat) :
    opOf (runBwd powFn s f) j = opOf s j := by
  cases f <;> simp [runBwd, add_to_grad, opOf_modifyGrad]

theorem prevOf_runBwd (powFn : K → K → K) (s : Store K) (f : BwdFn K) (j : Nat) :
    prevOf (runBwd powFn s f) j = prevOf s j := by
  cases f <;> simp [runBwd, add_to_grad, prevOf_modifyGrad]

theorem bwdOf_runBwd (powFn : K → K → K) (s : Store K) (f : BwdFn K) (j : Nat) :
    bwdOf (runBwd powFn s f) j = bwdOf s j := by
  cases f <;> simp [runBwd, add_to_grad, bwdOf_modifyGrad]

theorem gradOf_runBwd_not_target (powFn : K → K → K) (s : Store K) (f : BwdFn K)
    {j : Nat} (h : j ∉ f.targets) :
    gradOf (runBwd powFn s f) j = gradOf s j := by
  cases f with
  | noop => rfl
  | add lhs rhs out =>
    simp only [BwdFn.targets, List.mem_cons, List.not_mem_nil, not_or, or_false] at h
    simp only [runBwd, add_to_grad]
    rw [gradOf_modifyGrad_ne _ _ (fun hh => h.2 hh.symm),
      gradOf_modifyGrad_ne _ _ (fun hh => h.1 hh.symm)]
  | mul lhs rhs out =>
    simp only [BwdFn.targets, List.mem_cons, List.not_mem_nil, not_or, or_false] at h
    simp only [runBwd, add_to_grad]
    rw [gradOf_modifyGrad_ne _ _ (fun hh => h.2 hh.symm),
      gradOf_modifyGrad_ne _ _ (fun hh => h.1 hh.symm)]
  | tanh v t out =>
    simp only [BwdFn.targets, List.mem_cons, List.not_mem_nil, not_or, or_false] at h
    simp only [runBwd, add_to_grad]
    rw [gradOf_modifyGrad_ne _ _ (fun hh => h hh.symm)]
  | exp v e out =>
    simp only [BwdFn.targets, List.mem_cons, List.not_mem_nil, not_or, or_false] at h
    simp only [runBwd, add_to_grad]
    rw [gradOf_modifyGrad_ne _ _ (fun hh => h hh.symm)]
  | pow base exp_val out =>
    simp only [BwdFn.targets, List.mem_cons, List.not_mem_nil, not_or, or_false] at h
    simp only [runBwd, add_to_grad]
    rw [gradOf_modifyGrad_ne _ _ (fun hh => h hh.symm)]

/-! ## Execution-loop frame lemmas -/

theorem length_exec (powFn : K → K → K) (L : List Nat) (s0 : Store K) :
    (L.foldl (fun st v => runBwd powFn st (bwdOf st v)) s0).length = s0.length := by
  induction L generalizing s0 with
  | nil => rfl
  | cons v L ih => rw [List.foldl_cons, ih, length_runBwd]

theorem dataOf_exec (powFn : K → K → K) (L : List Nat) (s0 : Store K) (j : Nat) :
    dataOf (L.foldl (fun st v => runBwd powFn st (bwdOf st v)) s0) j = dataOf s0 j := by
  induction L generalizing s0 with
  | nil => rfl
  | cons v L ih => rw [List.foldl_cons, ih, dataOf_runBwd]

theorem labelOf_exec (powFn : K → K → K) (L : List Nat) (s0 : Store K) (j : Nat) :
    labelOf (L.foldl (fun st v => runBwd powFn st (bwdOf st v)) s0) j = labelOf s0 j := by
  induction L generalizing s0 with
  | nil => rfl
  | cons v L ih => rw [List.foldl_cons, ih, labelOf_runBwd]

theorem opOf_exec (powFn : K → K → K) (L : List Nat) (s0 : Store K) (j : Nat) :
    opOf (L.foldl (fun st v => runBwd powFn st (bwdOf st v)) s0) j = opOf s0 j := by
  induction L generalizing s0 with
  | nil => rfl
  | cons v L ih => rw [List.foldl_cons, ih, opOf_runBwd]

theorem prevOf_exec (powFn : K → K → K) (L : List Nat) (s0 : Store K) (j : Nat) :
    prevOf (L.foldl (fun st v => runBwd powFn st (bwdOf st v)) s0) j = prevOf s0 j := by
  induction L generalizing s0 with
  | nil => rfl
  | cons v L ih => rw [List.foldl_cons, ih, prevOf_runBwd]

theorem bwdOf_exec (powFn : K → K → K) (L : List Nat) (s0 : Store K) (j : Nat) :
    bwdOf (L.foldl (fun st v => runBwd powFn st (bwdOf st v)) s0) j = bwdOf s0 j := by
  induction L generalizing s0 with
  | nil => rfl
  | cons v L ih => rw [List.foldl_cons, ih, bwdOf_runBwd]

/-- If `j` is a gradient target of no closure run by the loop, its
gradient is untouched. -/
theorem gradOf_exec_not_target (powFn : K → K → K) (L : List Nat) (s0 : Store K)
    {j : Nat} (h : ∀ v ∈ L, j ∉ (bwdOf s0 v).targets) :
    gradOf (L.foldl (fun st v => runBwd powFn st (bwdOf st v)) s0) j = gradOf s0 j := by
  induction L generalizing s0 with
  | nil => rfl
  | cons v L ih =>
    rw [List.foldl_cons, ih, gradOf_runBwd_not_target _ _ _ (h v (by simp))]
    intro w hw
    rw [bwdOf_runBwd]
    exact h w (by simp [hw])

/-! ## Well-formedness of the graph and reachability -/

/-- Well-formedness: every operand id is strictly smaller than its
consumer's id (operands exist before the node that consumes them);
this is the arena rendering of the spec's acyclicity-by-construction
invariant. -/
def WF (s : Store K) : Prop := ∀ i, ∀ a ∈ prevOf s i, a < i

/-- Every id a stored backward closure increments is an operand of the
node holding the closure. -/
def WFB (s : Store K) : Prop := ∀ i, ∀ a ∈ (bwdOf s i).targets, a ∈ prevOf s i

/-- Reachability: `n` is reachable from `v` along the operand relation. -/
def Reaches (s : Store K) (v n : Nat) : Prop :=
  Relation.ReflTransGen (fun x y => y ∈ prevOf s x) v n

theorem Reaches.refl (s : Store K) (v : Nat) : Reaches s v v :=
  Relation.ReflTransGen.refl

theorem reaches_le {s : Store K} (hWF : WF s) {v n : Nat}
    (h : Reaches s v n) : n ≤ v := by
  induction h with
  | refl => exact le_refl _
  | tail h₁ h₂ ih => exact le_trans (le_of_lt (hWF _ _ h₂)) ih

/-- A prev-closed list absorbs everything reachable from its members. -/
theorem reaches_closed {s : Store K} {t : List Nat}
    (hcl : ∀ b ∈ t, ∀ a ∈ prevOf s b, a ∈ t) {b n : Nat} (hb : b ∈ t)
    (h : Reaches s b n) : n ∈ t := by
  induction h with
  | refl => exact hb
  | tail h₁ h₂ ih => exact hcl _ ih _ h₂

theorem mem_mkSet {a l r : Nat} : a ∈ mkSet l r ↔ a = l ∨ a = r := by
  unfold mkSet
  by_cases h : l = r
  · subst h
    simp
  · by_cases hlt : l < r <;> simp [h, hlt, List.mem_cons] <;> tauto

/-! ## Appending a fresh node -/

theorem getElem?_append_node (s : Store K) (nd : Node K) (i : Nat) :
    (s ++ [nd])[i]? = if i = s.length then some nd else s[i]? := by
  by_cases h : i = s.length
  · subst h
    simp [List.getElem?_concat_length]
  · rw [if_neg h]
    rcases Nat.lt_or_ge i s.length with hlt | hge
    · exact List.getElem?_append_left hlt
    · have h1 : s.length < i := lt_of_le_of_ne hge (Ne.symm h)
      rw [List.getElem?_append_right hge,
        List.getElem?_eq_none (l := [nd]) (by simp; omega),
        List.getElem?_eq_none (by omega)]

theorem prevOf_append (s : Store K) (nd : Node K) (i : Nat) :
    prevOf (s ++ [nd]) i = if i = s.length then nd.prev else prevOf s i := by
  unfold prevOf
  rw [getElem?_append_node]
  by_cases h : i = s.length <;> simp [h]

theorem bwdOf_append (s : Store K) (nd : Node K) (i : Nat) :
    bwdOf (s ++ [nd]) i = if i = s.length then nd.bwd else bwdOf s i := by
  unfold bwdOf
  rw [getElem?_append_node]
  by_cases h : i = s.length <;> simp [h]

theorem dataOf_append (s : Store K) (nd : Node K) (i : Nat) :
    dataOf (s ++ [nd]) i = if i = s.length then nd.data else dataOf s i := by
  unfold dataOf
  rw [getElem?_append_node]
  by_cases h : i = s.length <;> simp [h]

theorem gradOf_append (s : Store K) (nd : Node K) (i : Nat) :
    gradOf (s ++ [nd]) i = if i = s.length then nd.grad else gradOf s i := by
  unfold gradOf
  rw [getElem?_append_node]
  by_cases h : i = s.length <;> simp [h]

theorem WF_append {s : Store K} {nd : Node K} (hWF : WF s)
    (hnd : ∀ a ∈ nd.prev, a < s.length) : WF (s ++ [nd]) := by
  intro i a ha
  rw [prevOf_append] at ha
  by_cases h : i = s.length
  · rw [if_pos h] at ha
    have := hnd a ha
    omega
  · rw [if_neg h] at ha
    exact hWF i a ha

theorem WFB_append {s : Store K} {nd : Node K} (hW : WFB s)
    (hnd : ∀ a ∈ nd.bwd.targets, a ∈ nd.prev) : WFB (s ++ [nd]) := by
  intro i a ha
  rw [bwdOf_append] at ha
  rw [prevOf_append]
  by_cases h : i = s.length
  · rw [if_pos h] at ha
    rw [if_pos h]
    exact hnd a ha
  · rw [if_neg h] at ha
    rw [if_neg h]
    exact hW i a ha

/-! ## Stores built by the operator layer -/

/-- The stores the public graph-builder interface can produce over `ℝ`
(each operation invoked on already-existing node ids); the derived
operations `vneg`, `vsub`, `vdiv`, and the mixed Node/scalar forms are
compositions of these constructors. -/
inductive Built : Store ℝ → Prop where
  | empty : Built []
  | leaf {s : Store ℝ} (x : ℝ) (lbl : String) :
      Built s → Built (make_value s x lbl).1
  | add {s : Store ℝ} {lhs rhs : Nat} :
      Built s → lhs < s.length → rhs < s.length → Built (vadd s lhs rhs).1
  | mul {s : Store ℝ} {lhs rhs : Nat} :
      Built s → lhs < s.length → rhs < s.length → Built (vmul s lhs rhs).1
  | tanh {s : Store ℝ} {v : Nat} :
      Built s → v < s.length → Built (vtanh Real.tanh s v).1
  | exp {s : Store ℝ} {v : Nat} :
      Built s → v < s.length → Built (vexp Real.exp s v).1
  | pow {s : Store ℝ} {base : Nat} (exp_val : ℝ) :
      Built s → base < s.length → Built (vpow Real.rpow s base exp_val).1

theorem Built.wf {s : Store ℝ} (h : Built s) : WF s := by
  induction h with
  | empty =>
    intro i a ha
    simp [prevOf] at ha
  | leaf x lbl _ ih =>
    exact WF_append ih (by intro a ha; simp at ha)
  | add _ hl hr ih =>
    refine WF_append ih ?_
    intro a ha
    rcases mem_mkSet.mp ha with h | h <;> omega
  | mul _ hl hr ih =>
    refine WF_append ih ?_
    intro a ha
    rcases mem_mkSet.mp ha with h | h <;> omega
  | tanh _ hv ih =>
    refine WF_append ih ?_
    intro a ha
    simp only [List.mem_singleton] at ha
    omega
  | exp _ hv ih =>
    refine WF_append ih ?_
    intro a ha
    simp only [List.mem_singleton] at ha
    omega
  | pow e _ hb ih =>
    refine WF_append ih ?_
    intro a ha
    simp only [List.mem_singleton] at ha
    omega

theorem Built.wfb {s : Store ℝ} (h : Built s) : WFB s := by
  induction h with
  | empty =>
    intro i a ha
    simp [bwdOf, BwdFn.targets] at ha
  | leaf x lbl _ ih =>
    exact WFB_append ih (by intro a ha; simp [BwdFn.targets] at ha)
  | add _ hl hr ih =>
    refine WFB_append ih ?_
    intro a ha
    simp only [BwdFn.targets, List.mem_cons, List.not_mem_nil, or_false] at ha
    exact mem_mkSet.mpr ha
  | mul _ hl hr ih =>
    refine WFB_append ih ?_
    intro a ha
    simp only [BwdFn.targets, List.mem_cons, List.not_mem_nil, or_false] at ha
    exact mem_mkSet.mpr ha
  | tanh _ hv ih =>
    exact WFB_append ih (by intro a ha; simpa [BwdFn.targets] using ha)
  | exp _ hv ih =>
    exact WFB_append ih (by intro a ha; simpa [BwdFn.targets] using ha)
  | pow e _ hb ih =>
    exact WFB_append ih (by intro a ha; simpa [BwdFn.targets] using ha)

/-! ## Correctness of the DFS post-order (`build_topo`) -/

theorem buildTopo_succ (s : Store K) (fuel v : Nat) (vis topo : List Nat) :
    buildTopo s (fuel + 1) v (vis, topo) =
      if v ∈ vis then (vis, topo)
      else
        (((prevOf s v).foldl (fun acc c => buildTopo s fuel c acc) (v :: vis, topo)).1,
         ((prevOf s v).foldl (fun acc c => buildTopo s fuel c acc) (v :: vis, topo)).2 ++ [v]) :=
  rfl

/-- Invariant of the `(visited, topo)` state of `build_topo`: the
post-order list is duplicate-free, contained in the visited set,
downward closed under the operand relation, and lists every node after
all of its operands. -/
def TopoInv (s : Store K) (vis topo : List Nat) : Prop :=
  topo.Nodup ∧ (∀ n ∈ topo, n ∈ vis) ∧
    (∀ b ∈ topo, ∀ a ∈ prevOf s b, a ∈ topo) ∧
    topo.Pairwise (fun x y => y ∉ prevOf s x)

/-- Master invariant lemma for `build_topo`, by induction on the fuel
(sufficient whenever `v < fuel`, because operand ids strictly
decrease): a call from a state whose gray nodes (visited but not yet
appended) all exceed `v` preserves the invariant, only grows the
visited set, appends exactly the new nodes (all reachable from `v`),
does not change the gray set, and afterwards contains every node
reachable from `v` in the post-order list. -/
theorem buildTopo_main {s : Store K} (hWF : WF s) :
    ∀ (fuel v : Nat) (vis topo : List Nat), v < fuel → TopoInv s vis topo →
      (∀ g ∈ vis, g ∉ topo → v < g) →
      TopoInv s (buildTopo s fuel v (vis, topo)).1 (buildTopo s fuel v (vis, topo)).2 ∧
      (∀ n ∈ vis, n ∈ (buildTopo s fuel v (vis, topo)).1) ∧
      (∃ d, (buildTopo s fuel v (vis, topo)).2 = topo ++ d ∧
        ∀ n ∈ d, Reaches s v n) ∧
      (∀ n, n ∈ (buildTopo s fuel v (vis, topo)).1 ∧
          n ∉ (buildTopo s fuel v (vis, topo)).2 ↔ n ∈ vis ∧ n ∉ topo) ∧
      (∀ n, Reaches s v n → n ∈ (buildTopo s fuel v (vis, topo)).2) := by
  intro fuel
  induction fuel with
  | zero =>
    intro v vis topo hv
    omega
  | succ fuel ih =>
    have fold : ∀ (cs vis topo : List Nat), (∀ c ∈ cs, c < fuel) → TopoInv s vis topo →
        (∀ g ∈ vis, g ∉ topo → ∀ c ∈ cs, c < g) →
        TopoInv s (cs.foldl (fun acc c => buildTopo s fuel c acc) (vis, topo)).1
          (cs.foldl (fun acc c => buildTopo s fuel c acc) (vis, topo)).2 ∧
        (∀ n ∈ vis, n ∈ (cs.foldl (fun acc c => buildTopo s fuel c acc) (vis, topo)).1) ∧
        (∃ d, (cs.foldl (fun acc c => buildTopo s fuel c acc) (vis, topo)).2 = topo ++ d ∧
          ∀ n ∈ d, ∃ c ∈ cs, Reaches s c n) ∧
        (∀ n, n ∈ (cs.foldl (fun acc c => buildTopo s fuel c acc) (vis, topo)).1 ∧
            n ∉ (cs.foldl (fun acc c => buildTopo s fuel c acc) (vis, topo)).2 ↔
            n ∈ vis ∧ n ∉ topo) ∧
        (∀ c ∈ cs, ∀ n, Reaches s c n →
          n ∈ (cs.foldl (fun acc c => buildTopo s fuel c acc) (vis, topo)).2) := by
      intro cs
      induction cs with
      | nil =>
        intro vis topo _ hinv _
        simp only [List.foldl_nil]
        refine ⟨hinv, fun n hn => hn, ⟨[], ?_, ?_⟩, ?_, ?_⟩
        · exact (List.append_nil topo).symm
        · intro n hn
          simp at hn
        · exact fun n => trivial
        · intro c hc
          simp at hc
      | cons c cs ihc =>
        intro vis topo hbound hinv hgray
        simp only [List.foldl_cons]
        have h1 := ih c vis topo (hbound c (by simp)) hinv
          (fun g hg hgt => hgray g hg hgt c (by simp))
        obtain ⟨h1inv, h1mono, ⟨d1, h1eq, h1reach⟩, h1gray, h1comp⟩ := h1
        have h2 := ihc (buildTopo s fuel c (vis, topo)).1
          (buildTopo s fuel c (vis, topo)).2
          (fun x hx => hbound x (by simp [hx])) h1inv
          (by
            intro g hg hgt x hx
            have hvt := (h1gray g).mp ⟨hg, hgt⟩
            exact hgray g hvt.1 hvt.2 x (by simp [hx]))
        have heta : ((buildTopo s fuel c (vis, topo)).1,
            (buildTopo s fuel c (vis, topo)).2) = buildTopo s fuel c (vis, topo) := rfl
        rw [heta] at h2
        obtain ⟨h2inv, h2mono, ⟨d2, h2eq, h2reach⟩, h2gray, h2comp⟩ := h2
        refine ⟨h2inv, ?_, ?_, ?_, ?_⟩
        · intro n hn
          exact h2mono n (h1mono n hn)
        · refine ⟨d1 ++ d2, ?_, ?_⟩
          · rw [h2eq, h1eq, List.append_assoc]
          · intro n hn
            rcases List.mem_append.mp hn with h | h
            · exact ⟨c, by simp, h1reach n h⟩
            · obtain ⟨x, hx, hr⟩ := h2reach n h
              exact ⟨x, by simp [hx], hr⟩
        · intro n
          exact (h2gray n).trans (h1gray n)
        · intro x hx n hn
          rcases List.mem_cons.mp hx with h | h
          · subst h
            have := h1comp n hn
            rw [h2eq]
            exact List.mem_append_left _ this
          · exact h2comp x h n hn
    intro v vis topo hv hinv hgray
    rw [buildTopo_succ]
    by_cases hvis : v ∈ vis
    · rw [if_pos hvis]
      have hvt : v ∈ topo := by
        by_contra hvt
        exact lt_irrefl v (hgray v hvis hvt)
      refine ⟨hinv, fun n hn => hn, ⟨[], by simp, by simp⟩, fun n => Iff.rfl, ?_⟩
      intro n hn
      exact reaches_closed hinv.2.2.1 hvt hn
    · rw [if_neg hvis]
      obtain ⟨hnd, hsb, hcl, hpw⟩ := hinv
      have hbound : ∀ c ∈ prevOf s v, c < fuel := by
        intro c hc
        have := hWF v c hc
        omega
      have hinv' : TopoInv s (v :: vis) topo :=
        ⟨hnd, fun n hn => List.mem_cons_of_mem _ (hsb n hn), hcl, hpw⟩
      have hgray' : ∀ g ∈ v :: vis, g ∉ topo → ∀ c ∈ prevOf s v, c < g := by
        intro g hg hgt c hc
        rcases List.mem_cons.mp hg with h | h
        · subst h
          exact hWF g c hc
        · exact lt_trans (hWF v c hc) (hgray g h hgt)
      obtain ⟨hpinv, hpmono, ⟨df, hpeq, hpreach⟩, hpgray, hpcomp⟩ :=
        fold (prevOf s v) (v :: vis) topo hbound hinv' hgray'
      obtain ⟨hpnd, hpsb, hpcl, hppw⟩ := hpinv
      set p := (prevOf s v).foldl (fun acc c => buildTopo s fuel c acc) (v :: vis, topo)
        with hp
      have hv_not_p2 : v ∉ p.2 := by
        rw [hpeq]
        intro hmem
        rcases List.mem_append.mp hmem with h | h
        · exact hvis (hsb v h)
        · obtain ⟨c, hc, hr⟩ := hpreach v h
          have h1 := reaches_le hWF hr
          have h2 := hWF v c hc
          omega
      have hnodup : (p.2 ++ [v]).Nodup := by
        rw [List.nodup_append]
        refine ⟨hpnd, List.nodup_singleton _, ?_⟩
        intro a ha hav
        simp only [List.mem_singleton] at hav
        exact hv_not_p2 (hav ▸ ha)
      have hsb' : ∀ n ∈ p.2 ++ [v], n ∈ p.1 := by
        intro n hn
        rcases List.mem_append.mp hn with h | h
        · exact hpsb n h
        · simp only [List.mem_singleton] at h
          rw [h]
          exact hpmono v (by simp)
      have hclosed : ∀ b ∈ p.2 ++ [v], ∀ a ∈ prevOf s b, a ∈ p.2 ++ [v] := by
        intro b hb a ha
        rcases List.mem_append.mp hb with h | h
        · exact List.mem_append_left _ (hpcl b h a ha)
        · simp only [List.mem_singleton] at h
          rw [h] at ha
          exact List.mem_append_left _ (hpcomp a ha a (Reaches.refl s a))
      have hpair : (p.2 ++ [v]).Pairwise (fun x y => y ∉ prevOf s x) := by
        rw [List.pairwise_append]
        refine ⟨hppw, List.pairwise_singleton _ _, ?_⟩
        intro x hx y hy
        simp only [List.mem_singleton] at hy
        intro hvp
        rw [hy] at hvp
        rw [hpeq] at hx
        rcases List.mem_append.mp hx with h | h
        · exact hvis (hsb v (hcl x h v hvp))
        · obtain ⟨c, hc, hr⟩ := hpreach x h
          have h1 := reaches_le hWF hr
          have h2 := hWF v c hc
          have h3 := hWF x v hvp
          omega
      refine ⟨⟨hnodup, hsb', hclosed, hpair⟩, ?_, ?_, ?_, ?_⟩
      · intro n hn
        exact hpmono n (List.mem_cons_of_mem _ hn)
      · refine ⟨df ++ [v], ?_, ?_⟩
        · rw [hpeq, List.append_assoc]
        · intro n hn
          rcases List.mem_append.mp hn with h | h
          · obtain ⟨c, hc, hr⟩ := hpreach n h
            exact Relation.ReflTransGen.head hc hr
          · simp only [List.mem_singleton] at h
            rw [h]
            exact Reaches.refl s v
      · intro n
        constructor
        · rintro ⟨h1, h2⟩
          have hn2 : n ∉ p.2 := fun hh => h2 (List.mem_append_left _ hh)
          have hnv : n ≠ v := by
            intro hh
            exact h2 (by simp [hh])
          have hg := (hpgray n).mp ⟨h1, hn2⟩
          rcases List.mem_cons.mp hg.1 with h | h
          · exact absurd h hnv
          · exact ⟨h, hg.2⟩
        · rintro ⟨h1, h2⟩
          have hg := (hpgray n).mpr ⟨List.mem_cons_of_mem _ h1, h2⟩
          refine ⟨hg.1, ?_⟩
          intro hh
          rcases List.mem_append.mp hh with h | h
          · exact hg.2 h
          · simp only [List.mem_singleton] at h
            exact hvis (h ▸ h1)
      · intro n hn
        rcases Relation.ReflTransGen.cases_head hn with h | ⟨c, hc, hr⟩
        · rw [← h]
          exact List.mem_append_right _ (by simp)
        · exact List.mem_append_left _ (hpcomp c hc n hr)

/-- Specification of the `topo` list `Value::backward` computes: it
enumerates exactly the nodes reachable from `root`, without
duplicates, and lists every node after all of its operands. -/
theorem topoOf_spec {s : Store K} (hWF : WF s) (root : Nat) :
    (∀ n, n ∈ topoOf s root ↔ Reaches s root n) ∧
    (topoOf s root).Nodup ∧
    (topoOf s root).Pairwise (fun x y => y ∉ prevOf s x) := by
  have h := buildTopo_main hWF (root + 1) root [] [] (by omega)
    ⟨List.nodup_nil, by simp, by simp, List.Pairwise.nil⟩ (by simp)
  obtain ⟨⟨hnd, hsb, hcl, hpw⟩, _, ⟨d, heq, hreach⟩, _, hcomp⟩ := h
  unfold topoOf
  refine ⟨?_, hnd, hpw⟩
  intro n
  constructor
  · intro hn
    rw [heq] at hn
    simp only [List.nil_append] at hn
    exact hreach n hn
  · exact hcomp n

/-! ## Claim C1 -/

/-- C1: for every DAG built by the operator layer and every call of
`backward(root)`, the closures are executed over the list
`(topoOf s root).reverse` (first conjunct, the definition of
`backward`); that execution order contains exactly the nodes reachable
from `root` via the operand relation, each exactly once (even when
reachable via multiple paths), and whenever `a` is an operand of a
reachable consumer `b`, `b`'s closure runs strictly before `a`'s
(reverse topological order). -/
theorem C1_backward_reverse_topological (s : Store ℝ) (root : Nat)
    (hB : Built s) :
    (∀ powFn, backward powFn s root =
      ((topoOf s root).reverse).foldl (fun st v => runBwd powFn st (bwdOf st v))
        (set_grad s root 1)) ∧
    (∀ n, n ∈ (topoOf s root).reverse ↔ Reaches s root n) ∧
    (∀ n, Reaches s root n → ((topoOf s root).reverse).count n = 1) ∧
    ((topoOf s root).reverse).Pairwise (fun x y => x ∉ prevOf s y) ∧
    (∀ a b, Reaches s root b → a ∈ prevOf s b →
      ((topoOf s root).reverse).indexOf b < ((topoOf s root).reverse).indexOf a) := by
  have hWF := hB.wf
  obtain ⟨hmem, hnd, hpw⟩ := topoOf_spec hWF root
  have hmem' : ∀ n, n ∈ (topoOf s root).reverse ↔ Reaches s root n := by
    intro n
    rw [List.mem_reverse]
    exact hmem n
  have hnd' : ((topoOf s root).reverse).Nodup := List.nodup_reverse.mpr hnd
  have hpw' : ((topoOf s root).reverse).Pairwise (fun x y => x ∉ prevOf s y) :=
    List.pairwise_reverse.mpr hpw
  refine ⟨fun powFn => rfl, hmem', ?_, hpw', ?_⟩
  · intro n hn
    exact List.count_eq_one_of_mem hnd' ((hmem' n).mpr hn)
  · intro a b hb ha
    have hra : Reaches s root a := Relation.ReflTransGen.tail hb ha
    have hainb : a ∈ (topoOf s root).reverse := (hmem' a).mpr hra
    have hbinb : b ∈ (topoOf s root).reverse := (hmem' b).mpr hb
    have hab : a ≠ b := by
      have := hWF b a ha
      omega
    have hia := List.indexOf_lt_length.mpr hainb
    have hib := List.indexOf_lt_length.mpr hbinb
    rcases Nat.lt_or_ge (((topoOf s root).reverse).indexOf b)
      (((topoOf s root).reverse).indexOf a) with h | h
    · exact h
    · exfalso
      have hne : ((topoOf s root).reverse).indexOf a ≠
          ((topoOf s root).reverse).indexOf b := by
        intro hh
        apply hab
        rw [← List.indexOf_get (l := (topoOf s root).reverse) hia,
          ← List.indexOf_get (l := (topoOf s root).reverse) hib]
        simp [hh]
      have hlt : ((topoOf s root).reverse).indexOf a <
          ((topoOf s root).reverse).indexOf b := by omega
      have hp := List.pairwise_iff_get.mp hpw' ⟨_, hia⟩ ⟨_, hib⟩ hlt
      rw [List.indexOf_get hia, List.indexOf_get hib] at hp
      exact hp ha

/-- Closed witness for C1: the diamond `b = a + a` over the leaf
`a = make_value 2`; the hypothesis `Built` is discharged by the
operator-layer constructors and the conclusion is instantiated at
`root = 1`. -/
theorem C1_witness :
    Built (vadd (make_value ([] : Store ℝ) 2 "").1 0 0).1 ∧
    ((∀ powFn, backward powFn (vadd (make_value ([] : Store ℝ) 2 "").1 0 0).1 1 =
      ((topoOf (vadd (make_value ([] : Store ℝ) 2 "").1 0 0).1 1).reverse).foldl
        (fun st v => runBwd powFn st (bwdOf st v))
        (set_grad (vadd (make_value ([] : Store ℝ) 2 "").1 0 0).1 1 1)) ∧
    (∀ n, n ∈ (topoOf (vadd (make_value ([] : Store ℝ) 2 "").1 0 0).1 1).reverse ↔
      Reaches (vadd (make_value ([] : Store ℝ) 2 "").1 0 0).1 1 n) ∧
    (∀ n, Reaches (vadd (make_value ([] : Store ℝ) 2 "").1 0 0).1 1 n →
      ((topoOf (vadd (make_value ([] : Store ℝ) 2 "").1 0 0).1 1).reverse).count n = 1) ∧
    ((topoOf (vadd (make_value ([] : Store ℝ) 2 "").1 0 0).1 1).reverse).Pairwise
      (fun x y => x ∉ prevOf (vadd (make_value ([] : Store ℝ) 2 "").1 0 0).1 y) ∧
    (∀ a b, Reaches (vadd (make_value ([] : Store ℝ) 2 "").1 0 0).1 1 b →
      a ∈ prevOf (vadd (make_value ([] : Store ℝ) 2 "").1 0 0).1 b →
      ((topoOf (vadd (make_value ([] : Store ℝ) 2 "").1 0 0).1 1).reverse).indexOf b <
      ((topoOf (vadd (make_value ([] : Store ℝ) 2 "").1 0 0).1 1).reverse).indexOf a)) := by
  have hb : Built (vadd (make_value ([] : Store ℝ) 2 "").1 0 0).1 := by
    refine Built.add (Built.leaf 2 "" Built.empty) ?_ ?_ <;>
      simp [make_value]
  exact ⟨hb, C1_backward_reverse_topological _ 1 hb⟩

/-! ## Claim C2 -/

/-- C2: for every node `a` (in any store built by the operator
layer) whose gradient is 0, letting `b = multiply(a, a)` (the same node
as both operands), after `backward(b)` the gradient of `a` equals
`2 * a.value`: the contributions from both uses of `a` sum rather than
overwrite. -/
theorem C2_diamond_gradient_sums (s : Store ℝ) (a : Nat) (hB : Built s)
    (ha : a < s.length) (hg : gradOf s a = 0) :
    gradOf (backward Real.rpow (vmul s a a).1 (vmul s a a).2) a =
      2 * dataOf s a := by
  have hB1 : Built (vmul s a a).1 := Built.mul hB ha ha
  have hWF1 : WF (vmul s a a).1 := hB1.wf
  have hWFB1 : WFB (vmul s a a).1 := hB1.wfb
  set nd : Node ℝ := ⟨dataOf s a * dataOf s a, 0, "", "*", mkSet a a,
    .mul a a s.length⟩ with hnd
  have hs1 : (vmul s a a).1 = s ++ [nd] := rfl
  have hb2 : (vmul s a a).2 = s.length := rfl
  have hlen1 : (vmul s a a).1.length = s.length + 1 := by
    rw [hs1]
    simp
  have hab : a ≠ s.length := by omega
  have hprev_b : prevOf (vmul s a a).1 s.length = [a] := by
    rw [hs1, prevOf_append, if_pos rfl]
    simp [hnd, mkSet]
  have hbwd_b : bwdOf (vmul s a a).1 s.length = BwdFn.mul a a s.length := by
    rw [hs1, bwdOf_append, if_pos rfl]
  obtain ⟨⟨pnd, psb, pcl, pdw⟩, pmono, ⟨d, pdeq, pdreach⟩, pgray, pcomp⟩ :=
    buildTopo_main hWF1 s.length a [s.length] [] ha
      ⟨List.nodup_nil, by simp, by simp, List.Pairwise.nil⟩
      (by
        intro g hgm hgt
        simp only [List.mem_singleton] at hgm
        omega)
  have htopo : topoOf (vmul s a a).1 s.length =
      (buildTopo (vmul s a a).1 s.length a ([s.length], [])).2 ++ [s.length] := by
    unfold topoOf
    rw [buildTopo_succ, if_neg (by simp), hprev_b]
    simp only [List.foldl_cons, List.foldl_nil]
  have hreach_p2 : ∀ v ∈ (buildTopo (vmul s a a).1 s.length a ([s.length], [])).2,
      v ≤ a := by
    intro v hv
    rw [pdeq] at hv
    simp only [List.nil_append] at hv
    exact reaches_le hWF1 (pdreach v hv)
  -- unfold one execution step
  have hback : backward Real.rpow (vmul s a a).1 s.length =
      ((buildTopo (vmul s a a).1 s.length a ([s.length], [])).2.reverse).foldl
        (fun st v => runBwd Real.rpow st (bwdOf st v))
        (runBwd Real.rpow (set_grad (vmul s a a).1 s.length 1)
          (bwdOf (set_grad (vmul s a a).1 s.length 1) s.length)) := by
    show (topoOf (vmul s a a).1 s.length).reverse.foldl
        (fun st v => runBwd Real.rpow st (bwdOf st v))
        (set_grad (vmul s a a).1 s.length 1) = _
    rw [htopo]
    rw [List.reverse_append]
    simp only [List.reverse_singleton, List.singleton_append, List.foldl_cons]
  have hbwd_b' : bwdOf (set_grad (vmul s a a).1 s.length 1) s.length =
      BwdFn.mul a a s.length := by
    rw [set_grad, bwdOf_modifyGrad, hbwd_b]
  rw [hb2, hback, hbwd_b']
  set s2 := set_grad (vmul s a a).1 s.length 1 with hs2
  have hstep : runBwd Real.rpow s2 (BwdFn.mul a a s.length) =
      add_to_grad (add_to_grad s2 a (dataOf s2 a * gradOf s2 s.length)) a
        (dataOf (add_to_grad s2 a (dataOf s2 a * gradOf s2 s.length)) a *
          gradOf (add_to_grad s2 a (dataOf s2 a * gradOf s2 s.length)) s.length) :=
    rfl
  rw [hstep]
  -- gradients and data in the store after `set_grad root 1`
  have hlen2 : s2.length = s.length + 1 := by
    rw [hs2, set_grad, length_modifyGrad, hlen1]
  have hg2b : gradOf s2 s.length = 1 := by
    rw [hs2, set_grad, gradOf_modifyGrad_self _ _ (by omega)]
  have hg2a : gradOf s2 a = 0 := by
    rw [hs2, set_grad, gradOf_modifyGrad_ne _ _ (Ne.symm hab), hs1, gradOf_append,
      if_neg hab]
    exact hg
  have hd2a : dataOf s2 a = dataOf s a := by
    rw [hs2, set_grad, dataOf_modifyGrad, hs1, dataOf_append, if_neg hab]
  -- the `mul` closure adds `a.value * out.grad` to `a` twice
  have hg3a : gradOf (add_to_grad s2 a (dataOf s2 a * gradOf s2 s.length)) a =
      dataOf s a := by
    rw [add_to_grad, gradOf_modifyGrad_self _ _ (by omega), hg2a, hg2b, hd2a]
    ring
  have hg3b : gradOf (add_to_grad s2 a (dataOf s2 a * gradOf s2 s.length))
      s.length = 1 := by
    rw [add_to_grad, gradOf_modifyGrad_ne _ _ hab, hg2b]
  have hd3a : dataOf (add_to_grad s2 a (dataOf s2 a * gradOf s2 s.length)) a =
      dataOf s a := by
    rw [add_to_grad, dataOf_modifyGrad, hd2a]
  set s3 := add_to_grad s2 a (dataOf s2 a * gradOf s2 s.length) with hs3
  have hlen3 : s3.length = s.length + 1 := by
    rw [hs3, add_to_grad, length_modifyGrad, hlen2]
  have hg4a : gradOf (add_to_grad s3 a (dataOf s3 a * gradOf s3 s.length)) a =
      dataOf s a + dataOf s a := by
    rw [add_to_grad, gradOf_modifyGrad_self _ _ (by omega), hg3a, hg3b, hd3a]
    ring
  -- the remaining closures belong to nodes with ids `≤ a` and never
  -- target `a`
  rw [gradOf_exec_not_target]
  · rw [hg4a]
    ring
  · intro v hv
    have hva : v ≤ a := hreach_p2 v (List.mem_reverse.mp hv)
    have hbv : bwdOf (add_to_grad s3 a (dataOf s3 a * gradOf s3 s.length)) v =
        bwdOf (vmul s a a).1 v := by
      rw [add_to_grad, bwdOf_modifyGrad, hs3, add_to_grad, bwdOf_modifyGrad,
        hs2, set_grad, bwdOf_modifyGrad]
    rw [hbv]
    intro htgt
    have hmem := hWFB1 v a htgt
    have := hWF1 v a hmem
    omega

/-- Closed witness for C2: the single leaf `make_value 5`; after
`backward` on `multiply(a, a)` its gradient is `2 * 5`. -/
theorem C2_witness :
    Built ((make_value ([] : Store ℝ) 5 "").1) ∧
    0 < ((make_value ([] : Store ℝ) 5 "").1).length ∧
    gradOf ((make_value ([] : Store ℝ) 5 "").1) 0 = 0 ∧
    gradOf (backward Real.rpow
        (vmul ((make_value ([] : Store ℝ) 5 "").1) 0 0).1
        (vmul ((make_value ([] : Store ℝ) 5 "").1) 0 0).2) 0 =
      2 * dataOf ((make_value ([] : Store ℝ) 5 "").1) 0 := by
  have hb : Built ((make_value ([] : Store ℝ) 5 "").1) :=
    Built.leaf 5 "" Built.empty
  have h0 : 0 < ((make_value ([] : Store ℝ) 5 "").1).length := by
    simp [make_value]
  have hg : gradOf ((make_value ([] : Store ℝ) 5 "").1) 0 = 0 := rfl
  exact ⟨hb, h0, hg, C2_diamond_gradient_sums _ 0 hb h0 hg⟩

/-! ## Claim C9 -/

/-- C9: `backward(root)` modifies only gradient fields: for every
node in the store (reachable from `root` or not), its value, label,
operation tag, operand set, and stored backward closure are unchanged,
and no node is added or removed. -/
theorem C9_backward_frame (powFn : ℝ → ℝ → ℝ) (s : Store ℝ) (root : Nat) :
    (backward powFn s root).length = s.length ∧
    ∀ i, dataOf (backward powFn s root) i = dataOf s i ∧
      labelOf (backward powFn s root) i = labelOf s i ∧
      opOf (backward powFn s root) i = opOf s i ∧
      prevOf (backward powFn s root) i = prevOf s i ∧
      bwdOf (backward powFn s root) i = bwdOf s i := by
  have hb : backward powFn s root = ((topoOf s root).reverse).foldl
      (fun st v => runBwd powFn st (bwdOf st v)) (set_grad s root 1) := rfl
  rw [hb]
  constructor
  · rw [length_exec, set_grad, length_modifyGrad]
  · intro i
    rw [dataOf_exec, labelOf_exec, opOf_exec, prevOf_exec, bwdOf_exec, set_grad,
      dataOf_modifyGrad, labelOf_modifyGrad, opOf_modifyGrad, prevOf_modifyGrad,
      bwdOf_modifyGrad]
    exact ⟨rfl, rfl, rfl, rfl, rfl⟩

/-! ## Claim C10 -/

/-- C10: when the two operands of `add` or `multiply` are the same
node, the operand set `m_prev` of the result contains exactly one
element (`std::set` collapses the duplicate), yet the backward closure
still applies the contribution once per operand occurrence: in the
concrete graph `c = add(a, a)` over the leaf `a = make_value x`, the
gradient of `a` after `backward(c)` is `2` (both unit contributions
sum). -/
theorem C10_duplicate_operand_set_collapses (s : Store ℝ) (l : Nat) (x : ℝ) :
    prevOf (vadd s l l).1 (vadd s l l).2 = [l] ∧
    prevOf (vmul s l l).1 (vmul s l l).2 = [l] ∧
    gradOf (backward Real.rpow
      (vadd (make_value ([] : Store ℝ) x).1 0 0).1
      (vadd (make_value ([] : Store ℝ) x).1 0 0).2) 0 = 2 := by
  refine ⟨?_, ?_, ?_⟩
  · show prevOf (s ++ [_]) s.length = [l]
    rw [prevOf_append, if_pos rfl]
    simp [mkSet]
  · show prevOf (s ++ [_]) s.length = [l]
    rw [prevOf_append, if_pos rfl]
    simp [mkSet]
  · have h : gradOf (backward Real.rpow
        (vadd (make_value ([] : Store ℝ) x).1 0 0).1
        (vadd (make_value ([] : Store ℝ) x).1 0 0).2) 0 = 0 + 1 + 1 := rfl
    rw [h]
    norm_num

/-! ## Claim C4 -/

/-- C4: for every node `a` (in any store built by the operator
layer) with gradient 0, letting `f = tanh(a)`: the value of `f` is
`tanh(a.value)`, and after `backward(f)` the gradient of `a` is
`1 - f.value ^ 2`.  (Over the real-number embedding every value is
finite.) -/
theorem C4_tanh_value_and_gradient (s : Store ℝ) (a : Nat) (hB : Built s)
    (ha : a < s.length) (hg : gradOf s a = 0) :
    dataOf (vtanh Real.tanh s a).1 (vtanh Real.tanh s a).2 =
      Real.tanh (dataOf s a) ∧
    gradOf (backward Real.rpow (vtanh Real.tanh s a).1
        (vtanh Real.tanh s a).2) a =
      1 - (dataOf (vtanh Real.tanh s a).1 (vtanh Real.tanh s a).2) ^ 2 := by
  have hB1 : Built (vtanh Real.tanh s a).1 := Built.tanh hB ha
  have hWF1 : WF (vtanh Real.tanh s a).1 := hB1.wf
  have hWFB1 : WFB (vtanh Real.tanh s a).1 := hB1.wfb
  set nd : Node ℝ := ⟨Real.tanh (dataOf s a), 0, "", "tanh", [a],
    .tanh a (Real.tanh (dataOf s a)) s.length⟩ with hnd
  have hs1 : (vtanh Real.tanh s a).1 = s ++ [nd] := rfl
  have hb2 : (vtanh Real.tanh s a).2 = s.length := rfl
  have hval : dataOf (vtanh Real.tanh s a).1 (vtanh Real.tanh s a).2 =
      Real.tanh (dataOf s a) := by
    rw [hs1, hb2, dataOf_append, if_pos rfl]
  have hlen1 : (vtanh Real.tanh s a).1.length = s.length + 1 := by
    rw [hs1]
    simp
  have hab : a ≠ s.length := by omega
  have hprev_b : prevOf (vtanh Real.tanh s a).1 s.length = [a] := by
    rw [hs1, prevOf_append, if_pos rfl]
  have hbwd_b : bwdOf (vtanh Real.tanh s a).1 s.length =
      BwdFn.tanh a (Real.tanh (dataOf s a)) s.length := by
    rw [hs1, bwdOf_append, if_pos rfl]
  obtain ⟨⟨pnd, psb, pcl, pdw⟩, pmono, ⟨d, pdeq, pdreach⟩, pgray, pcomp⟩ :=
    buildTopo_main hWF1 s.length a [s.length] [] ha
      ⟨List.nodup_nil, by simp, by simp, List.Pairwise.nil⟩
      (by
        intro g hgm hgt
        simp only [List.mem_singleton] at hgm
        omega)
  have htopo : topoOf (vtanh Real.tanh s a).1 s.length =
      (buildTopo (vtanh Real.tanh s a).1 s.length a ([s.length], [])).2 ++
        [s.length] := by
    unfold topoOf
    rw [buildTopo_succ, if_neg (by simp), hprev_b]
    simp only [List.foldl_cons, List.foldl_nil]
  have hreach_p2 :
      ∀ v ∈ (buildTopo (vtanh Real.tanh s a).1 s.length a ([s.length], [])).2,
      v ≤ a := by
    intro v hv
    rw [pdeq] at hv
    simp only [List.nil_append] at hv
    exact reaches_le hWF1 (pdreach v hv)
  have hback : backward Real.rpow (vtanh Real.tanh s a).1 s.length =
      ((buildTopo (vtanh Real.tanh s a).1 s.length a ([s.length], [])).2.reverse).foldl
        (fun st v => runBwd Real.rpow st (bwdOf st v))
        (runBwd Real.rpow (set_grad (vtanh Real.tanh s a).1 s.length 1)
          (bwdOf (set_grad (vtanh Real.tanh s a).1 s.length 1) s.length)) := by
    show (topoOf (vtanh Real.tanh s a).1 s.length).reverse.foldl
        (fun st v => runBwd Real.rpow st (bwdOf st v))
        (set_grad (vtanh Real.tanh s a).1 s.length 1) = _
    rw [htopo, List.reverse_append]
    simp only [List.reverse_singleton, List.singleton_append, List.foldl_cons]
  have hbwd_b' : bwdOf (set_grad (vtanh Real.tanh s a).1 s.length 1) s.length =
      BwdFn.tanh a (Real.tanh (dataOf s a)) s.length := by
    rw [set_grad, bwdOf_modifyGrad, hbwd_b]
  refine ⟨hval, ?_⟩
  rw [hb2, hback, hbwd_b']
  set s2 := set_grad (vtanh Real.tanh s a).1 s.length 1 with hs2
  have hstep : runBwd Real.rpow s2
      (BwdFn.tanh a (Real.tanh (dataOf s a)) s.length) =
      add_to_grad s2 a
        ((1 - Real.tanh (dataOf s a) * Real.tanh (dataOf s a)) *
          gradOf s2 s.length) := rfl
  rw [hstep]
  have hlen2 : s2.length = s.length + 1 := by
    rw [hs2, set_grad, length_modifyGrad, hlen1]
  have hg2b : gradOf s2 s.length = 1 := by
    rw [hs2, set_grad, gradOf_modifyGrad_self _ _ (by omega)]
  have hg2a : gradOf s2 a = 0 := by
    rw [hs2, set_grad, gradOf_modifyGrad_ne _ _ (Ne.symm hab), hs1, gradOf_append,
      if_neg hab]
    exact hg
  have hg3a : gradOf (add_to_grad s2 a
      ((1 - Real.tanh (dataOf s a) * Real.tanh (dataOf s a)) *
        gradOf s2 s.length)) a =
      1 - Real.tanh (dataOf s a) ^ 2 := by
    rw [add_to_grad, gradOf_modifyGrad_self _ _ (by omega), hg2a, hg2b]
    ring
  rw [gradOf_exec_not_target]
  · rw [hg3a, hs1, dataOf_append, if_pos rfl]
  · intro v hv
    have hva : v ≤ a := hreach_p2 v (List.mem_reverse.mp hv)
    have hbv : bwdOf (add_to_grad s2 a
        ((1 - Real.tanh (dataOf s a) * Real.tanh (dataOf s a)) *
          gradOf s2 s.length)) v = bwdOf (vtanh Real.tanh s a).1 v := by
      rw [add_to_grad, bwdOf_modifyGrad, hs2, set_grad, bwdOf_modifyGrad]
    rw [hbv]
    intro htgt
    have hmem := hWFB1 v a htgt
    have := hWF1 v a hmem
    omega

/-- Closed witness for C4: the single leaf `make_value 1`. -/
theorem C4_witness :
    Built ((make_value ([] : Store ℝ) 1 "").1) ∧
    0 < ((make_value ([] : Store ℝ) 1 "").1).length ∧
    gradOf ((make_value ([] : Store ℝ) 1 "").1) 0 = 0 ∧
    (dataOf (vtanh Real.tanh ((make_value ([] : Store ℝ) 1 "").1) 0).1
        (vtanh Real.tanh ((make_value ([] : Store ℝ) 1 "").1) 0).2 =
      Real.tanh (dataOf ((make_value ([] : Store ℝ) 1 "").1) 0) ∧
    gradOf (backward Real.rpow
        (vtanh Real.tanh ((make_value ([] : Store ℝ) 1 "").1) 0).1
        (vtanh Real.tanh ((make_value ([] : Store ℝ) 1 "").1) 0).2) 0 =
      1 - (dataOf (vtanh Real.tanh ((make_value ([] : Store ℝ) 1 "").1) 0).1
        (vtanh Real.tanh ((make_value ([] : Store ℝ) 1 "").1) 0).2) ^ 2) := by
  have hb : Built ((make_value ([] : Store ℝ) 1 "").1) :=
    Built.leaf 1 "" Built.empty
  have h0 : 0 < ((make_value ([] : Store ℝ) 1 "").1).length := by
    simp [make_value]
  have hg : gradOf ((make_value ([] : Store ℝ) 1 "").1) 0 = 0 := rfl
  exact ⟨hb, h0, hg, C4_tanh_value_and_gradient _ 0 hb h0 hg⟩

/-! ## Claim C3 -/

/-- C3: division scenario.  For leaves `g = make_value 8` and
`h = make_value 2` and `i = divide(g, h)` (built compositionally as
`multiply(g, power(h, -1))`): `i.value = 4`, and after `backward(i)`,
`g.gradient = 0.5` and `h.gradient = -2`. -/
theorem C3_division_scenario :
    dataOf (vdiv Real.rpow
        (make_value ((make_value ([] : Store ℝ) 8 "").1) 2 "").1 0 1).1
      (vdiv Real.rpow
        (make_value ((make_value ([] : Store ℝ) 8 "").1) 2 "").1 0 1).2 = 4 ∧
    gradOf (backward Real.rpow
      (vdiv Real.rpow
        (make_value ((make_value ([] : Store ℝ) 8 "").1) 2 "").1 0 1).1
      (vdiv Real.rpow
        (make_value ((make_value ([] : Store ℝ) 8 "").1) 2 "").1 0 1).2) 0 =
      0.5 ∧
    gradOf (backward Real.rpow
      (vdiv Real.rpow
        (make_value ((make_value ([] : Store ℝ) 8 "").1) 2 "").1 0 1).1
      (vdiv Real.rpow
        (make_value ((make_value ([] : Store ℝ) 8 "").1) 2 "").1 0 1).2) 1 =
      -2 := by
  have hpow1 : (2:ℝ) ^ (-1:ℝ) = 1/2 := by
    rw [show (-1:ℝ) = ((-1:ℤ):ℝ) by norm_num, Real.rpow_intCast]
    norm_num
  have hpow2 : (2:ℝ) ^ ((-1:ℝ) - 1) = 1/4 := by
    rw [show ((-1:ℝ) - 1) = ((-2:ℤ):ℝ) by norm_num, Real.rpow_intCast]
    norm_num
  have hval : dataOf (vdiv Real.rpow
      (make_value ((make_value ([] : Store ℝ) 8 "").1) 2 "").1 0 1).1
      (vdiv Real.rpow
        (make_value ((make_value ([] : Store ℝ) 8 "").1) 2 "").1 0 1).2 =
      8 * (2:ℝ) ^ (-1:ℝ) := rfl
  have hg0 : gradOf (backward Real.rpow
      (vdiv Real.rpow
        (make_value ((make_value ([] : Store ℝ) 8 "").1) 2 "").1 0 1).1
      (vdiv Real.rpow
        (make_value ((make_value ([] : Store ℝ) 8 "").1) 2 "").1 0 1).2) 0 =
      0 + (2:ℝ) ^ (-1:ℝ) * 1 := rfl
  have hg1 : gradOf (backward Real.rpow
      (vdiv Real.rpow
        (make_value ((make_value ([] : Store ℝ) 8 "").1) 2 "").1 0 1).1
      (vdiv Real.rpow
        (make_value ((make_value ([] : Store ℝ) 8 "").1) 2 "").1 0 1).2) 1 =
      0 + (-1 : ℝ) * (2:ℝ) ^ ((-1:ℝ) - 1) * (0 + 8 * 1) := rfl
  rw [hval, hg0, hg1, hpow1, hpow2]
  norm_num

/-! ## Claim C5 -/

/-- C5: for each of `add`, `multiply`, `subtract` and `divide` the
mixed Node/scalar form exists and wraps the scalar operand as a fresh
unlabeled leaf node (empty label, empty op, no operands, no-op
closure) before applying the Node/Node form; in particular for
`j = make_value 5` and `k = add(j, 10.0)` (scalar form), `k.value = 15`
and after `backward(k)`, `j.gradient = 1`. -/
theorem C5_mixed_scalar_forms :
    (∀ (s : Store ℝ) (lhs : Nat) (c : ℝ),
      vaddC s lhs c =
        vadd (s ++ [⟨c, 0, "", "", [], BwdFn.noop⟩]) lhs s.length) ∧
    (∀ (s : Store ℝ) (c : ℝ) (rhs : Nat),
      vaddC' s c rhs =
        vadd (s ++ [⟨c, 0, "", "", [], BwdFn.noop⟩]) s.length rhs) ∧
    (∀ (s : Store ℝ) (lhs : Nat) (c : ℝ),
      vmulC s lhs c =
        vmul (s ++ [⟨c, 0, "", "", [], BwdFn.noop⟩]) lhs s.length) ∧
    (∀ (s : Store ℝ) (c : ℝ) (rhs : Nat),
      vmulC' s c rhs =
        vmul (s ++ [⟨c, 0, "", "", [], BwdFn.noop⟩]) s.length rhs) ∧
    (∀ (s : Store ℝ) (lhs : Nat) (c : ℝ),
      vsubC s lhs c =
        vsub (s ++ [⟨c, 0, "", "", [], BwdFn.noop⟩]) lhs s.length) ∧
    (∀ (s : Store ℝ) (c : ℝ) (rhs : Nat),
      vsubC' s c rhs =
        vsub (s ++ [⟨c, 0, "", "", [], BwdFn.noop⟩]) s.length rhs) ∧
    (∀ (powFn : ℝ → ℝ → ℝ) (s : Store ℝ) (lhs : Nat) (c : ℝ),
      vdivC powFn s lhs c =
        vdiv powFn (s ++ [⟨c, 0, "", "", [], BwdFn.noop⟩]) lhs s.length) ∧
    dataOf (vaddC ((make_value ([] : Store ℝ) 5 "").1) 0 10).1
      (vaddC ((make_value ([] : Store ℝ) 5 "").1) 0 10).2 = 15 ∧
    gradOf (backward Real.rpow
      (vaddC ((make_value ([] : Store ℝ) 5 "").1) 0 10).1
      (vaddC ((make_value ([] : Store ℝ) 5 "").1) 0 10).2) 0 = 1 := by
  have hval : dataOf (vaddC ((make_value ([] : Store ℝ) 5 "").1) 0 10).1
      (vaddC ((make_value ([] : Store ℝ) 5 "").1) 0 10).2 = (5:ℝ) + 10 := rfl
  have hgrad : gradOf (backward Real.rpow
      (vaddC ((make_value ([] : Store ℝ) 5 "").1) 0 10).1
      (vaddC ((make_value ([] : Store ℝ) 5 "").1) 0 10).2) 0 = 0 + 1 := rfl
  refine ⟨fun s lhs c => rfl, fun s c rhs => rfl, fun s lhs c => rfl,
    fun s c rhs => rfl, fun s lhs c => rfl, fun s c rhs => rfl,
    fun powFn s lhs c => rfl, ?_, ?_⟩
  · rw [hval]
    norm_num
  · rw [hgrad]
    norm_num

/-! ## Claim C7 -/

set_option maxHeartbeats 1000000 in
/-- C7: `backward` never implicitly resets gradients.  In any built
store the root's gradient equals 1 after a pass (it is set to 1 at the
start of each pass and no reachable closure targets the root), and in
the concrete graph `c = add(a, b)` over leaves `a`, `b`, running
`backward(c)` twice without any reset leaves `a.gradient = 2` and
`b.gradient = 2` (the two passes' unit contributions sum), while
`c.gradient = 1` after each pass. -/
theorem C7_gradients_accumulate_across_passes (s : Store ℝ) (root : Nat)
    (hB : Built s) (hroot : root < s.length) :
    gradOf (backward Real.rpow s root) root = 1 ∧
    ∀ x y : ℝ,
      gradOf (backward Real.rpow
        (vadd ((make_value ((make_value ([] : Store ℝ) x).1) y).1) 0 1).1
        2) 0 = 1 ∧
      gradOf (backward Real.rpow
        (vadd ((make_value ((make_value ([] : Store ℝ) x).1) y).1) 0 1).1
        2) 1 = 1 ∧
      gradOf (backward Real.rpow
        (vadd ((make_value ((make_value ([] : Store ℝ) x).1) y).1) 0 1).1
        2) 2 = 1 ∧
      gradOf (backward Real.rpow (backward Real.rpow
        (vadd ((make_value ((make_value ([] : Store ℝ) x).1) y).1) 0 1).1
        2) 2) 0 = 2 ∧
      gradOf (backward Real.rpow (backward Real.rpow
        (vadd ((make_value ((make_value ([] : Store ℝ) x).1) y).1) 0 1).1
        2) 2) 1 = 2 ∧
      gradOf (backward Real.rpow (backward Real.rpow
        (vadd ((make_value ((make_value ([] : Store ℝ) x).1) y).1) 0 1).1
        2) 2) 2 = 1 := by
  constructor
  · have hWF := hB.wf
    have hWFB := hB.wfb
    obtain ⟨hmem, hnd, hpw⟩ := topoOf_spec hWF root
    have hb : backward Real.rpow s root = ((topoOf s root).reverse).foldl
        (fun st v => runBwd Real.rpow st (bwdOf st v)) (set_grad s root 1) := rfl
    rw [hb, gradOf_exec_not_target]
    · rw [set_grad, gradOf_modifyGrad_self _ _ hroot]
    · intro v hv
      have hvr : Reaches s root v := (hmem v).mp (List.mem_reverse.mp hv)
      have hvle : v ≤ root := reaches_le hWF hvr
      have hbv : bwdOf (set_grad s root 1) v = bwdOf s v := by
        rw [set_grad, bwdOf_modifyGrad]
      rw [hbv]
      intro htgt
      have hmem2 := hWFB v root htgt
      have := hWF v root hmem2
      omega
  · intro x y
    have hpass1 : backward Real.rpow
        (vadd ((make_value ((make_value ([] : Store ℝ) x).1) y).1) 0 1).1
        2 =
        ([⟨x, 0 + 1, "", "", [], BwdFn.noop⟩,
          ⟨y, 0 + 1, "", "", [], BwdFn.noop⟩,
          ⟨x + y, 1, "", "+", [0, 1], BwdFn.add 0 1 2⟩] : Store ℝ) := rfl
    rw [hpass1]
    have h1 : gradOf ([⟨x, 0 + 1, "", "", [], BwdFn.noop⟩,
        ⟨y, 0 + 1, "", "", [], BwdFn.noop⟩,
        ⟨x + y, 1, "", "+", [0, 1], BwdFn.add 0 1 2⟩] : Store ℝ) 0 = 0 + 1 := rfl
    have h2 : gradOf ([⟨x, 0 + 1, "", "", [], BwdFn.noop⟩,
        ⟨y, 0 + 1, "", "", [], BwdFn.noop⟩,
        ⟨x + y, 1, "", "+", [0, 1], BwdFn.add 0 1 2⟩] : Store ℝ) 1 = 0 + 1 := rfl
    have h3 : gradOf ([⟨x, 0 + 1, "", "", [], BwdFn.noop⟩,
        ⟨y, 0 + 1, "", "", [], BwdFn.noop⟩,
        ⟨x + y, 1, "", "+", [0, 1], BwdFn.add 0 1 2⟩] : Store ℝ) 2 = 1 := rfl
    have h4 : gradOf (backward Real.rpow ([⟨x, 0 + 1, "", "", [], BwdFn.noop⟩,
        ⟨y, 0 + 1, "", "", [], BwdFn.noop⟩,
        ⟨x + y, 1, "", "+", [0, 1], BwdFn.add 0 1 2⟩] : Store ℝ) 2) 0 =
        0 + 1 + 1 := rfl
    have h5 : gradOf (backward Real.rpow ([⟨x, 0 + 1, "", "", [], BwdFn.noop⟩,
        ⟨y, 0 + 1, "", "", [], BwdFn.noop⟩,
        ⟨x + y, 1, "", "+", [0, 1], BwdFn.add 0 1 2⟩] : Store ℝ) 2) 1 =
        0 + 1 + 1 := rfl
    have h6 : gradOf (backward Real.rpow ([⟨x, 0 + 1, "", "", [], BwdFn.noop⟩,
        ⟨y, 0 + 1, "", "", [], BwdFn.noop⟩,
        ⟨x + y, 1, "", "+", [0, 1], BwdFn.add 0 1 2⟩] : Store ℝ) 2) 2 = 1 := rfl
    rw [h1, h2, h3, h4, h5, h6]
    norm_num

/-- Closed witness for C7: the add-graph `c = add(a, b)` over leaves
with values 0, with root id 2. -/
theorem C7_witness :
    Built (vadd ((make_value ((make_value ([] : Store ℝ) 0 "").1) 0 "").1) 0 1).1 ∧
    2 < (vadd ((make_value ((make_value ([] : Store ℝ) 0 "").1) 0 "").1) 0 1).1.length ∧
    gradOf (backward Real.rpow
      (vadd ((make_value ((make_value ([] : Store ℝ) 0 "").1) 0 "").1) 0 1).1 2) 2
      = 1 := by
  have hb : Built (vadd ((make_value ((make_value ([] : Store ℝ) 0 "").1) 0 "").1)
      0 1).1 := by
    refine Built.add (Built.leaf 0 "" (Built.leaf 0 "" Built.empty)) ?_ ?_ <;>
      simp [make_value]
  have hlen : 2 < (vadd ((make_value ((make_value ([] : Store ℝ) 0 "").1) 0
      "").1) 0 1).1.length := by
    simp [vadd, make_value]
  exact ⟨hb, hlen,
    (C7_gradients_accumulate_across_passes _ 2 hb hlen).1⟩

/-! ## Claim C8 -/

/-- C8 counterexample: the public interface (`value.hpp`) exposes
`Value::set_grad(double)`, which overwrites the gradient with an
arbitrary value: applied with argument 5 to a node whose gradient is 0
and to a node whose gradient is 7 it produces gradient 5 in both
cases — so it is neither an increment by a fixed contribution (an
increment preserves the difference of the two runs) nor a reset to 0
(the result is 5 ≠ 0).  This refutes the claim that the interface
offers no operation writing an arbitrary gradient value. -/
theorem C8_set_grad_arbitrary_write_counterexample :
    gradOf ((make_value ([] : Store ℝ) 1 "").1) 0 = 0 ∧
    gradOf (add_to_grad ((make_value ([] : Store ℝ) 1 "").1) 0 7) 0 = 7 ∧
    gradOf (set_grad ((make_value ([] : Store ℝ) 1 "").1) 0 5) 0 = 5 ∧
    gradOf (set_grad (add_to_grad ((make_value ([] : Store ℝ) 1 "").1) 0 7)
      0 5) 0 = 5 ∧
    (5 : ℝ) ≠ 0 ∧
    gradOf ((make_value ([] : Store ℝ) 1 "").1) 0 ≠
      gradOf (add_to_grad ((make_value ([] : Store ℝ) 1 "").1) 0 7) 0 := by
  have h1 : gradOf ((make_value ([] : Store ℝ) 1 "").1) 0 = 0 := rfl
  have h2 : gradOf (add_to_grad ((make_value ([] : Store ℝ) 1 "").1) 0 7) 0 =
      0 + 7 := rfl
  have h3 : gradOf (set_grad ((make_value ([] : Store ℝ) 1 "").1) 0 5) 0 =
      5 := rfl
  have h4 : gradOf (set_grad (add_to_grad ((make_value ([] : Store ℝ) 1 "").1)
      0 7) 0 5) 0 = 5 := rfl
  rw [h1, h2, h3, h4]
  norm_num

/-- C8 amended: a node's gradient is modified by incrementing
(`add_to_grad`, also used by the backward closures), by `zero_grad`
resetting it to 0, by `backward` writing 1 into the root, or by the
public mutator `set_grad`, which writes an arbitrary caller-chosen
value; each mutator touches only the addressed node. -/
theorem C8_gradient_mutator_semantics (s : Store ℝ) (i : Nat) (g d : ℝ)
    (hi : i < s.length) :
    gradOf (add_to_grad s i d) i = gradOf s i + d ∧
    gradOf (zero_grad s i) i = 0 ∧
    gradOf (set_grad s i g) i = g ∧
    ∀ j, i ≠ j →
      gradOf (add_to_grad s i d) j = gradOf s j ∧
      gradOf (zero_grad s i) j = gradOf s j ∧
      gradOf (set_grad s i g) j = gradOf s j := by
  refine ⟨?_, ?_, ?_, ?_⟩
  · rw [add_to_grad, gradOf_modifyGrad_self _ _ hi]
  · rw [zero_grad, gradOf_modifyGrad_self _ _ hi]
  · rw [set_grad, gradOf_modifyGrad_self _ _ hi]
  · intro j hij
    exact ⟨gradOf_modifyGrad_ne _ _ hij, gradOf_modifyGrad_ne _ _ hij,
      gradOf_modifyGrad_ne _ _ hij⟩

/-- Closed witness for the amended C8, at the singleton store. -/
theorem C8_witness :
    0 < ((make_value ([] : Store ℝ) 1 "").1).length ∧
    (gradOf (add_to_grad ((make_value ([] : Store ℝ) 1 "").1) 0 4) 0 =
      gradOf ((make_value ([] : Store ℝ) 1 "").1) 0 + 4 ∧
    gradOf (zero_grad ((make_value ([] : Store ℝ) 1 "").1) 0) 0 = 0 ∧
    gradOf (set_grad ((make_value ([] : Store ℝ) 1 "").1) 0 9) 0 = 9 ∧
    ∀ j, 0 ≠ j →
      gradOf (add_to_grad ((make_value ([] : Store ℝ) 1 "").1) 0 4) j =
        gradOf ((make_value ([] : Store ℝ) 1 "").1) j ∧
      gradOf (zero_grad ((make_value ([] : Store ℝ) 1 "").1) 0) j =
        gradOf ((make_value ([] : Store ℝ) 1 "").1) j ∧
      gradOf (set_grad ((make_value ([] : Store ℝ) 1 "").1) 0 9) j =
        gradOf ((make_value ([] : Store ℝ) 1 "").1) j) := by
  have h0 : 0 < ((make_value ([] : Store ℝ) 1 "").1).length := by
    simp [make_value]
  exact ⟨h0, C8_gradient_mutator_semantics _ 0 9 4 h0⟩

end Micrograd
